import Mathlib

/-!
# Verification of the provenance exchange settlement core

Shallow embedding of the settlement core of the provenance exchange module
and of the test-scaffolding helpers in `x/exchange/keeper/suite_test.go` and
`x/marker/simulation/operations.go`, with theorems settling the frozen
specification claims.
-/

namespace Provenance

/-! ## Test-scaffolding helpers (from `x/exchange/keeper/suite_test.go`) -/

/-- Embedding of the loop body of Go's `reverseSlice` on a non-nil slice:
the result read left to right holds, at position `j`, the input element at
position `len - 1 - j` (the Go loop writes `rv[len(vals)-i-1] = vals[i]`). -/
def reverseSliceList {α : Type} (l : List α) : List α :=
  List.ofFn fun j : Fin l.length => l.get ⟨l.length - 1 - j.val, by omega⟩

/-- `reverseSlice` from `suite_test.go`: a Go slice is `Option (List α)`
(`none` is the nil slice); `nil` maps to `nil`, otherwise a fresh reversed
slice is built. -/
def reverseSlice {α : Type} (vals : Option (List α)) : Option (List α) :=
  match vals with
  | none => none
  | some l => some (reverseSliceList l)

theorem reverseSliceList_eq_reverse {α : Type} (l : List α) :
    reverseSliceList l = l.reverse := by
  apply List.ext_get
  · simp [reverseSliceList]
  · intro i h1 h2
    simp only [reverseSliceList, List.get_ofFn]
    rw [List.get_reverse']
    simp at h1
    congr 1

/-- C8: `reverseSlice` is an involution, maps the nil slice to the nil
slice, preserves length, and moves the element at index `i` to index
`len - 1 - i`. -/
theorem reverseSlice_involution {α : Type} :
    (∀ v : Option (List α), reverseSlice (reverseSlice v) = v) ∧
    reverseSlice (none : Option (List α)) = none ∧
    (∀ l : List α, (reverseSliceList l).length = l.length) ∧
    (∀ (l : List α) (i : Nat), i < l.length →
      (reverseSliceList l).get? (l.length - 1 - i) = l.get? i) := by
  refine ⟨?_, rfl, ?_, ?_⟩
  · intro v
    cases v with
    | none => rfl
    | some l => simp [reverseSlice, reverseSliceList_eq_reverse]
  · intro l
    simp [reverseSliceList_eq_reverse]
  · intro l i hi
    rw [reverseSliceList_eq_reverse]
    simp only [List.get?_eq_getElem?]
    rw [List.getElem?_reverse (by omega)]
    congr 1
    omega

/-- Witness for C8 at a concrete slice. -/
theorem reverseSlice_involution_witness :
    (0 : Nat) < [(10 : Nat), 20, 30].length ∧
      (reverseSliceList [(10 : Nat), 20, 30]).get? ([(10 : Nat), 20, 30].length - 1 - 0) =
        [(10 : Nat), 20, 30].get? 0 :=
  ⟨by decide, (reverseSlice_involution (α := Nat)).2.2.2 [10, 20, 30] 0 (by decide)⟩

/-- Embedding of Go's `bytes.Compare`: lexicographic comparison of byte
slices returning `-1`, `0`, or `1`. -/
def bytesCompare : List Nat → List Nat → Int
  | [], [] => 0
  | [], _ :: _ => -1
  | _ :: _, [] => 1
  | a :: as, b :: bs =>
    if a < b then -1
    else if b < a then 1
    else bytesCompare as bs

/-- `compareAddrs` from `suite_test.go`, parameterized by the bech32
decoder `dec` (`sdk.AccAddressFromBech32`; `none` models a decode error):
equal strings compare as `0`; otherwise strings decoding to addresses sort
first by byte comparison, then non-decodable strings in string order. -/
def compareAddrs (dec : String → Option (List Nat)) (addri addrj : String) : Int :=
  if addri = addrj then 0
  else
    match dec addri, dec addrj with
    | some acci, some accj => bytesCompare acci accj
    | some _, none => -1
    | none, some _ => 1
    | none, none => if addri < addrj then -1 else 1

theorem bytesCompare_antisymm (a b : List Nat) :
    bytesCompare a b = -bytesCompare b a := by
  induction a generalizing b with
  | nil => cases b <;> simp [bytesCompare]
  | cons x as ih =>
    cases b with
    | nil => simp [bytesCompare]
    | cons y bs =>
      simp only [bytesCompare]
      rcases Nat.lt_trichotomy x y with h | h | h
      · simp [h, Nat.not_lt.mpr (Nat.le_of_lt h)]
      · subst h
        simp [Nat.lt_irrefl, ih]
      · simp [h, Nat.not_lt.mpr (Nat.le_of_lt h)]

/-- C9: `compareAddrs` is reflexively zero and antisymmetric for every
decoder function, hence in particular for the bech32 address decoder, in
all four classification cases. -/
theorem compareAddrs_refl_antisymm :
    ∀ (dec : String → Option (List Nat)) (a b : String),
      compareAddrs dec a a = 0 ∧ compareAddrs dec a b = -compareAddrs dec b a := by
  intro dec a b
  constructor
  · simp [compareAddrs]
  · by_cases hab : a = b
    · subst hab
      simp [compareAddrs]
    · have hba : ¬b = a := fun h => hab h.symm
      simp only [compareAddrs, if_neg hab, if_neg hba]
      cases ha : dec a <;> cases hb : dec b
      · rcases lt_or_gt_of_ne hab with h | h
        · simp [h, not_lt.mpr (le_of_lt h)]
        · simp [h, not_lt.mpr (le_of_lt h)]
      · simp
      · simp
      · exact bytesCompare_antisymm _ _

/-! ## Marker simulation helpers (from `x/marker/simulation/operations.go`) -/

/-- A marker access right (`types.Access`). -/
inductive Access
  | mint | burn | deposit | withdraw | delete | admin | transfer
deriving DecidableEq, Repr

/-- A simulation account (`simtypes.Account`), reduced to its address. -/
structure SimAccount where
  address : String
deriving DecidableEq, Repr

/-- A marker access grant (`types.AccessGrant`). -/
structure MarkerAccessGrant where
  address : String
  permissions : List Access
deriving DecidableEq, Repr

/-- Loop of `randomAccessGrants`: `skip i` models `r.Intn(10) < 3` at the
`i`-th account (skip it), `accessOf i` models the `randomAccessTypes` draw
for the `i`-th account; a grant is appended for each non-skipped account
and the loop returns as soon as `len(grants) >= limit`. -/
def randomAccessGrantsAux (skip : Nat → Bool) (accessOf : Nat → List Access)
    (limit : Nat) : Nat → List SimAccount → List MarkerAccessGrant → List MarkerAccessGrant
  | _, [], grants => grants
  | i, acc :: rest, grants =>
    if skip i then randomAccessGrantsAux skip accessOf limit (i + 1) rest grants
    else if limit ≤ (grants ++ [(⟨acc.address, accessOf i⟩ : MarkerAccessGrant)]).length then
      grants ++ [⟨acc.address, accessOf i⟩]
    else randomAccessGrantsAux skip accessOf limit (i + 1) rest
      (grants ++ [⟨acc.address, accessOf i⟩])

/-- `randomAccessGrants` from `operations.go`, with the random source
abstracted into the per-index draws `skip` and `accessOf`. -/
def randomAccessGrants (skip : Nat → Bool) (accessOf : Nat → List Access)
    (accs : List SimAccount) (limit : Nat) : List MarkerAccessGrant :=
  randomAccessGrantsAux skip accessOf limit 0 accs []

theorem randomAccessGrantsAux_sublist (skip : Nat → Bool) (accessOf : Nat → List Access)
    (limit : Nat) (rest : List SimAccount) :
    ∀ (i : Nat) (grants : List MarkerAccessGrant),
      ∃ s, randomAccessGrantsAux skip accessOf limit i rest grants = grants ++ s ∧
        List.Sublist (s.map MarkerAccessGrant.address) (rest.map SimAccount.address) := by
  induction rest with
  | nil =>
    intro i grants
    exact ⟨[], by simp [randomAccessGrantsAux], List.nil_sublist _⟩
  | cons acc rest ih =>
    intro i grants
    rw [randomAccessGrantsAux]
    by_cases hs : skip i = true
    · obtain ⟨s, heq, hsub⟩ := ih (i + 1) grants
      refine ⟨s, ?_, ?_⟩
      · rw [if_pos hs]
        exact heq
      · exact hsub.trans (List.sublist_cons_self _ _)
    · rw [if_neg hs]
      by_cases hl : limit ≤ (grants ++ [(⟨acc.address, accessOf i⟩ : MarkerAccessGrant)]).length
      · refine ⟨[⟨acc.address, accessOf i⟩], by rw [if_pos hl], ?_⟩
        simp
      · obtain ⟨s, hfeq, hsub⟩ :=
          ih (i + 1) (grants ++ [(⟨acc.address, accessOf i⟩ : MarkerAccessGrant)])
        refine ⟨⟨acc.address, accessOf i⟩ :: s, ?_, ?_⟩
        · rw [if_neg hl, hfeq]
          simp
        · simpa using List.Sublist.cons₂ acc.address hsub

theorem randomAccessGrantsAux_length (skip : Nat → Bool) (accessOf : Nat → List Access)
    (limit : Nat) (rest : List SimAccount) :
    ∀ (i : Nat) (grants : List MarkerAccessGrant), grants.length < limit →
      (randomAccessGrantsAux skip accessOf limit i rest grants).length ≤ limit := by
  induction rest with
  | nil =>
    intro i grants h
    simpa [randomAccessGrantsAux] using Nat.le_of_lt h
  | cons acc rest ih =>
    intro i grants h
    rw [randomAccessGrantsAux]
    by_cases hs : skip i = true
    · rw [if_pos hs]
      exact ih (i + 1) grants h
    · rw [if_neg hs]
      by_cases hl : limit ≤ (grants ++ [(⟨acc.address, accessOf i⟩ : MarkerAccessGrant)]).length
      · rw [if_pos hl]
        simp only [List.length_append, List.length_cons, List.length_nil]
        omega
      · rw [if_neg hl]
        exact ih (i + 1) _ (by simp at hl ⊢; omega)

/-- C10: for every random draw, account list and `limit ≥ 1`,
`randomAccessGrants` returns at most `limit` grants, at most `len(accs)`
grants, and the grant addresses form a sublist of the account addresses,
so each grant comes from a distinct account and no account contributes
more than one grant. -/
theorem randomAccessGrants_bounds (skip : Nat → Bool) (accessOf : Nat → List Access)
    (accs : List SimAccount) (limit : Nat) (hlim : 1 ≤ limit) :
    (randomAccessGrants skip accessOf accs limit).length ≤ limit ∧
    (randomAccessGrants skip accessOf accs limit).length ≤ accs.length ∧
    List.Sublist ((randomAccessGrants skip accessOf accs limit).map MarkerAccessGrant.address)
      (accs.map SimAccount.address) := by
  obtain ⟨s, heq, hsub⟩ := randomAccessGrantsAux_sublist skip accessOf limit accs 0 []
  have hlen := randomAccessGrantsAux_length skip accessOf limit accs 0 []
    (by simpa using hlim)
  refine ⟨hlen, ?_, ?_⟩
  · unfold randomAccessGrants
    rw [heq]
    have := hsub.length_le
    simpa using this
  · unfold randomAccessGrants
    rw [heq]
    simpa using hsub

/-- Witness for C10 at a concrete draw: two accounts, everything selected,
limit 1. -/
theorem randomAccessGrants_bounds_witness :
    (randomAccessGrants (fun _ => false) (fun _ => [Access.mint])
        [⟨"acct1"⟩, ⟨"acct2"⟩] 1).length ≤ 1 ∧
    (randomAccessGrants (fun _ => false) (fun _ => [Access.mint])
        [⟨"acct1"⟩, ⟨"acct2"⟩] 1).length ≤ [(⟨"acct1"⟩ : SimAccount), ⟨"acct2"⟩].length ∧
    List.Sublist
      ((randomAccessGrants (fun _ => false) (fun _ => [Access.mint])
        [⟨"acct1"⟩, ⟨"acct2"⟩] 1).map MarkerAccessGrant.address)
      ([(⟨"acct1"⟩ : SimAccount), ⟨"acct2"⟩].map SimAccount.address) :=
  randomAccessGrants_bounds (fun _ => false) (fun _ => [Access.mint])
    [⟨"acct1"⟩, ⟨"acct2"⟩] 1 (by decide)

/-! ## Exchange core data model

The production exchange keeper is not part of the visible fragment (only
its test scaffolding is), so the operations below are modelled from the
specification, as flagged on each definition. -/

/-- An sdk.Coin: a denom together with a non-negative amount. -/
structure Coin where
  denom : String
  amount : Nat
deriving DecidableEq, Repr

/-- Lexicographic strict comparison of character lists. -/
def strLtb : List Char → List Char → Bool
  | [], [] => false
  | [], _ :: _ => true
  | _ :: _, [] => false
  | c :: cs, d :: ds =>
    if c < d then true
    else if d < c then false
    else strLtb cs ds

/-- Lexicographic strict comparison of strings (byte order of Go's
`sort.Strings` on the key encoding). -/
def strLt (a b : String) : Bool := strLtb a.data b.data

/-- Insert a coin into a denom-sorted coin list, merging amounts of equal
denoms (the canonical representation used by sdk.Coins). -/
def insertCoin (c : Coin) : List Coin → List Coin
  | [] => [c]
  | d :: rest =>
    if strLt c.denom d.denom then c :: d :: rest
    else if c.denom = d.denom then ⟨d.denom, c.amount + d.amount⟩ :: rest
    else d :: insertCoin c rest

/-- Normalize a list of coins: sorted by denom, merged amounts, zero
amounts dropped. -/
def sumCoins (l : List Coin) : List Coin :=
  (l.foldl (fun acc c => insertCoin c acc) []).filter (fun c => c.amount ≠ 0)

/-- A fee ratio: a price coin and a fee coin (`FeeRatio` in x/exchange). -/
structure FeeRatio where
  price : Coin
  fee : Coin
deriving DecidableEq, Repr

/-! ## Fee model (spec §4.1) -/

/-- Modelled from the spec: ratio application of the fee model —
`fee = floor(ratioFee.Amount * price.Amount / ratioPrice.Amount)`, rounding
down, applied only when the ratio's price denom matches the price's denom
(`none` when the denoms do not match). -/
def ratioApplyFee (r : FeeRatio) (price : Coin) : Option Coin :=
  if r.price.denom = price.denom then
    some ⟨r.fee.denom, r.fee.amount * price.amount / r.price.amount⟩
  else none

/-- Modelled from the spec: the ratio fees of a settlement — each ratio is
applied independently per matching ratio and per distinct price denom
present in the settlement, each contributing its own fee coin. -/
def settlementRatioFees (ratios : List FeeRatio) (prices : List Coin) : List Coin :=
  prices.foldr (fun p acc => (ratios.filterMap fun r => ratioApplyFee r p) ++ acc) []

/-- C2: a ratio fee is exactly `floor(ratioFee.Amount * price.Amount /
ratioPrice.Amount)` in exact integer arithmetic rounded toward zero
(characterized by `fee * den ≤ num < (fee + 1) * den`), and in a
settlement with several price denoms each matching ratio contributes its
own independently computed fee: the fees of a combined price list are the
concatenation of the fees of its parts. -/
theorem ratioApplyFee_floor (r : FeeRatio) (p c : Coin)
    (hpos : 0 < r.price.amount) (h : ratioApplyFee r p = some c) :
    c.denom = r.fee.denom ∧
    c.amount = r.fee.amount * p.amount / r.price.amount ∧
    c.amount * r.price.amount ≤ r.fee.amount * p.amount ∧
    r.fee.amount * p.amount < (c.amount + 1) * r.price.amount ∧
    ∀ (ratios : List FeeRatio) (ps qs : List Coin),
      settlementRatioFees ratios (ps ++ qs) =
        settlementRatioFees ratios ps ++ settlementRatioFees ratios qs := by
  unfold ratioApplyFee at h
  by_cases hd : r.price.denom = p.denom
  · rw [if_pos hd] at h
    obtain rfl : (⟨r.fee.denom, r.fee.amount * p.amount / r.price.amount⟩ : Coin) = c :=
      Option.some.inj h
    refine ⟨rfl, rfl, Nat.div_mul_le_self _ _, ?_, ?_⟩
    · rw [Nat.add_mul, Nat.one_mul]
      exact Nat.lt_div_mul_add hpos
    · intro ratios ps qs
      induction ps with
      | nil => simp [settlementRatioFees]
      | cons x xs ih =>
        simp only [settlementRatioFees, List.foldr_cons, List.cons_append] at ih ⊢
        rw [ih, List.append_assoc]
  · rw [if_neg hd] at h
    exact absurd h (by simp)

/-- Witness for C2: ratio `3stake:2musd` applied to a price of `10stake`
charges `floor(2*10/3) = 6musd`. -/
theorem ratioApplyFee_floor_witness :
    (0 : Nat) < 3 ∧
    ratioApplyFee ⟨⟨"stake", 3⟩, ⟨"musd", 2⟩⟩ ⟨"stake", 10⟩ = some ⟨"musd", 6⟩ ∧
    (⟨"musd", 6⟩ : Coin).amount = 2 * 10 / 3 :=
  ⟨by decide, by decide,
    (ratioApplyFee_floor ⟨⟨"stake", 3⟩, ⟨"musd", 2⟩⟩ ⟨"stake", 10⟩ ⟨"musd", 6⟩
      (by decide) (by decide)).2.1⟩

/-! ## Fee-ratio parsing and formatting (spec §4.1) -/

/-- The decimal digit character of a digit value below ten. -/
def digitChar : Nat → Char
  | 0 => '0' | 1 => '1' | 2 => '2' | 3 => '3' | 4 => '4'
  | 5 => '5' | 6 => '6' | 7 => '7' | 8 => '8' | 9 => '9'
  | _ => '*'

/-- The digit value of a decimal digit character. -/
def digitVal (c : Char) : Nat := c.toNat - 48

/-- The decimal representation of a natural number as characters,
most-significant digit first (empty for zero). -/
def natChars (n : Nat) : List Char :=
  ((Nat.digits 10 n).map digitChar).reverse

/-- Read a most-significant-first digit string as a natural number. -/
def parseNatChars (cs : List Char) : Nat :=
  Nat.ofDigits 10 ((cs.map digitVal).reverse)

/-- Modelled from the spec: coin-string parsing (`sdk.ParseCoinNormalized`
as used by the fee model) — a leading run of decimal digits is the amount
and the non-empty remainder is the denom; fails when either part is
empty. -/
def parseCoinChars (cs : List Char) : Option Coin :=
  match cs.takeWhile Char.isDigit, cs.dropWhile Char.isDigit with
  | [], _ => none
  | _, [] => none
  | ds, rest => some ⟨⟨rest⟩, parseNatChars ds⟩

/-- The character string of a coin: decimal amount then denom. -/
def coinChars (c : Coin) : List Char :=
  natChars c.amount ++ c.denom.data

/-- Split a character list at each `':'`. -/
def splitOnColon : List Char → List (List Char)
  | [] => [[]]
  | c :: rest =>
    if c = ':' then [] :: splitOnColon rest
    else
      match splitOnColon rest with
      | [] => [[c]]
      | p :: ps => (c :: p) :: ps

/-- Modelled from the spec: `ParseFeeRatio` of x/exchange — split a
`"<price>:<fee>"` string on `':'` into exactly two coin strings, parse
each coin, and fail (`InvalidFeeRatio`) when the string is malformed,
an amount is non-positive, or a denom is empty. -/
def ParseFeeRatio (s : String) : Option FeeRatio :=
  match splitOnColon s.data with
  | [ps, fs] =>
    match parseCoinChars ps, parseCoinChars fs with
    | some p, some f =>
      if p.amount = 0 ∨ f.amount = 0 then none else some ⟨p, f⟩
    | _, _ => none
  | _ => none

/-- Modelled from the spec: `FeeRatio.String` — format as
`"<price>:<fee>"`. -/
def feeRatioString (r : FeeRatio) : String :=
  ⟨coinChars r.price ++ ':' :: coinChars r.fee⟩

theorem digitChar_isDigit {d : Nat} (hd : d < 10) :
    (digitChar d).isDigit = true ∧ digitVal (digitChar d) = d := by
  interval_cases d <;> exact ⟨by decide, by decide⟩

theorem digitChar_ne_colon {d : Nat} (hd : d < 10) : digitChar d ≠ ':' := by
  interval_cases d <;> decide

theorem parseNatChars_natChars (n : Nat) : parseNatChars (natChars n) = n := by
  unfold parseNatChars natChars
  rw [List.map_reverse, List.reverse_reverse, List.map_map]
  have hmap : (Nat.digits 10 n).map (digitVal ∘ digitChar) = Nat.digits 10 n := by
    conv_rhs => rw [← List.map_id (Nat.digits 10 n)]
    apply List.map_congr_left
    intro d hd
    exact (digitChar_isDigit (Nat.digits_lt_base (by norm_num) hd)).2
  rw [hmap, Nat.ofDigits_digits]

theorem natChars_all_digits (n : Nat) :
    ∀ c ∈ natChars n, c.isDigit = true := by
  intro c hc
  unfold natChars at hc
  rw [List.mem_reverse, List.mem_map] at hc
  obtain ⟨d, hd, rfl⟩ := hc
  exact (digitChar_isDigit (Nat.digits_lt_base (by norm_num) hd)).1

theorem natChars_no_colon (n : Nat) : ':' ∉ natChars n := by
  intro hc
  unfold natChars at hc
  rw [List.mem_reverse, List.mem_map] at hc
  obtain ⟨d, hd, heq⟩ := hc
  exact digitChar_ne_colon (Nat.digits_lt_base (by norm_num) hd) heq

theorem natChars_ne_nil {n : Nat} (hn : 0 < n) : natChars n ≠ [] := by
  unfold natChars
  simp only [ne_eq, List.reverse_eq_nil_iff, List.map_eq_nil_iff]
  rw [Nat.digits_eq_nil_iff_eq_zero]
  omega

theorem takeWhile_append_eq {p : Char → Bool} {l1 l2 : List Char}
    (h1 : ∀ c ∈ l1, p c = true) (h2 : ∀ c rest, l2 = c :: rest → p c = false) :
    (l1 ++ l2).takeWhile p = l1 ∧ (l1 ++ l2).dropWhile p = l2 := by
  induction l1 with
  | nil =>
    cases l2 with
    | nil => simp
    | cons c rest =>
      have := h2 c rest rfl
      simp [List.takeWhile, List.dropWhile, this]
  | cons x xs ih =>
    have hx : p x = true := h1 x (by simp)
    have ih' := ih (fun c hc => h1 c (by simp [hc]))
    simp only [List.cons_append, List.takeWhile_cons, List.dropWhile_cons, hx]
    simp [ih'.1, ih'.2]

theorem dropWhile_head_false {p : Char → Bool} {l : List Char} {c : Char} {rest : List Char}
    (h : l.dropWhile p = c :: rest) : p c = false := by
  induction l with
  | nil => simp [List.dropWhile] at h
  | cons x xs ih =>
    rw [List.dropWhile_cons] at h
    by_cases hx : p x = true
    · rw [if_pos hx] at h
      exact ih h
    · rw [if_neg hx] at h
      obtain ⟨rfl, -⟩ := List.cons.inj h
      exact Bool.not_eq_true _ |>.mp hx

theorem dropWhile_mem {p : Char → Bool} {l : List Char} :
    ∀ c ∈ l.dropWhile p, c ∈ l := by
  intro c hc
  exact (List.dropWhile_sublist p (l := l)).mem hc

theorem splitOnColon_ne_nil (cs : List Char) : splitOnColon cs ≠ [] := by
  induction cs with
  | nil => simp [splitOnColon]
  | cons c rest ih =>
    rw [splitOnColon]
    by_cases hc : c = ':'
    · simp [hc]
    · rw [if_neg hc]
      cases h : splitOnColon rest with
      | nil => simp
      | cons p ps => simp

theorem splitOnColon_single {cs b : List Char} (h : splitOnColon cs = [b]) :
    cs = b ∧ ':' ∉ b := by
  induction cs generalizing b with
  | nil =>
    rw [splitOnColon] at h
    obtain rfl := (List.cons.inj h).1.symm
    exact ⟨rfl, by simp⟩
  | cons c rest ih =>
    rw [splitOnColon] at h
    by_cases hc : c = ':'
    · rw [if_pos hc] at h
      obtain ⟨-, habs⟩ := List.cons.inj h
      exact absurd habs (splitOnColon_ne_nil rest)
    · rw [if_neg hc] at h
      cases hrest : splitOnColon rest with
      | nil => exact absurd hrest (splitOnColon_ne_nil rest)
      | cons p ps =>
        rw [hrest] at h
        obtain ⟨hb, hps⟩ := List.cons.inj h
        subst hps
        obtain ⟨rfl, hnc⟩ := ih hrest
        refine ⟨hb ▸ rfl, ?_⟩
        rw [← hb]
        simp only [List.mem_cons, not_or]
        exact ⟨fun habs => hc habs.symm, hnc⟩

theorem splitOnColon_pair {cs a b : List Char} (h : splitOnColon cs = [a, b]) :
    cs = a ++ ':' :: b ∧ ':' ∉ a ∧ ':' ∉ b := by
  induction cs generalizing a with
  | nil =>
    rw [splitOnColon] at h
    exact absurd (List.cons.inj h).2 (by simp)
  | cons c rest ih =>
    rw [splitOnColon] at h
    by_cases hc : c = ':'
    · rw [if_pos hc] at h
      obtain ⟨ha, hb⟩ := List.cons.inj h
      obtain ⟨rfl, hnb⟩ := splitOnColon_single hb
      subst hc
      exact ⟨by simp [← ha], by simp [← ha], hnb⟩
    · rw [if_neg hc] at h
      cases hrest : splitOnColon rest with
      | nil => exact absurd hrest (splitOnColon_ne_nil rest)
      | cons p ps =>
        rw [hrest] at h
        obtain ⟨ha, hps⟩ := List.cons.inj h
        have hsplit : splitOnColon rest = [p, b] := by
          rw [hrest, hps]
        obtain ⟨rfl, hnp, hnb⟩ := ih hsplit
        refine ⟨by rw [← ha]; simp, ?_, hnb⟩
        rw [← ha]
        simp only [List.mem_cons, not_or]
        exact ⟨fun habs => hc habs.symm, hnp⟩

theorem splitOnColon_join {a b : List Char} (ha : ':' ∉ a) (hb : ':' ∉ b) :
    splitOnColon (a ++ ':' :: b) = [a, b] := by
  induction a with
  | nil =>
    rw [List.nil_append, splitOnColon, if_pos rfl]
    have : splitOnColon b = [b] := by
      induction b with
      | nil => rfl
      | cons c rest ihb =>
        rw [splitOnColon]
        have hc : ¬c = ':' := fun habs => hb (by simp [habs])
        rw [if_neg hc, ihb (fun habs => hb (by simp [habs]))]
    rw [this]
  | cons c cs ih =>
    have hc : ¬c = ':' := fun habs => ha (by simp [habs])
    rw [List.cons_append, splitOnColon, if_neg hc,
      ih (fun habs => ha (by simp [habs]))]

theorem parseCoinChars_sound {cs : List Char} {c : Coin}
    (h : parseCoinChars cs = some c) :
    c.denom.data ≠ [] ∧
    (∀ ch rest, c.denom.data = ch :: rest → ch.isDigit = false) ∧
    (∀ ch ∈ c.denom.data, ch ∈ cs) := by
  unfold parseCoinChars at h
  cases hds : cs.takeWhile Char.isDigit with
  | nil => rw [hds] at h; exact absurd h (by simp)
  | cons d ds' =>
    cases hrest : cs.dropWhile Char.isDigit with
    | nil => rw [hds, hrest] at h; exact absurd h (by simp)
    | cons e es =>
      rw [hds, hrest] at h
      obtain rfl : (⟨⟨e :: es⟩, parseNatChars (d :: ds')⟩ : Coin) = c := Option.some.inj h
      refine ⟨by simp, ?_, ?_⟩
      · intro ch rest hch
        obtain ⟨rfl, -⟩ := List.cons.inj hch
        exact dropWhile_head_false hrest
      · intro ch hch
        apply dropWhile_mem (p := Char.isDigit)
        rw [hrest]
        exact hch

theorem parseCoinChars_coinChars {c : Coin} (hamt : 0 < c.amount)
    (hden : c.denom.data ≠ [])
    (hhead : ∀ ch rest, c.denom.data = ch :: rest → ch.isDigit = false) :
    parseCoinChars (coinChars c) = some c := by
  have hsplit :=
    takeWhile_append_eq (p := Char.isDigit)
      (natChars_all_digits c.amount)
      (fun ch rest hch => hhead ch rest hch :
        ∀ ch rest, c.denom.data = ch :: rest → Char.isDigit ch = false)
  unfold parseCoinChars coinChars
  rw [hsplit.1, hsplit.2]
  cases hnc : natChars c.amount with
  | nil => exact absurd hnc (natChars_ne_nil hamt)
  | cons d ds' =>
    cases hdd : c.denom.data with
    | nil => exact absurd hdd hden
    | cons e es =>
      have hval : parseNatChars (d :: ds') = c.amount := by
        rw [← hnc, parseNatChars_natChars]
      have hstr : (⟨e :: es⟩ : String) = c.denom := by
        rw [← hdd]
      simp only [hval, hstr]

theorem ParseFeeRatio_of_split {s : String} {ps fs : List Char}
    (h : splitOnColon s.data = [ps, fs]) :
    ParseFeeRatio s =
      match parseCoinChars ps, parseCoinChars fs with
      | some p, some f =>
        if p.amount = 0 ∨ f.amount = 0 then none else some ⟨p, f⟩
      | _, _ => none := by
  unfold ParseFeeRatio
  rw [h]

/-- C7: for every valid fee-ratio string `"<price>:<fee>"`,
parse→format→parse recovers exactly the `FeeRatio` of the first parse, and
the first parse already recovers the price and fee coins written in the
two halves of the original string (with positive amounts). -/
theorem ParseFeeRatio_roundTrip (s : String) (r : FeeRatio)
    (h : ParseFeeRatio s = some r) :
    ParseFeeRatio (feeRatioString r) = some r ∧
    ∃ pcs fcs, s.data = pcs ++ ':' :: fcs ∧
      parseCoinChars pcs = some r.price ∧ parseCoinChars fcs = some r.fee ∧
      0 < r.price.amount ∧ 0 < r.fee.amount := by
  obtain ⟨ps, fs, p, f, hsp, hp, hf, hpz, hfz, rfl⟩ :
      ∃ ps fs p f, splitOnColon s.data = [ps, fs] ∧
        parseCoinChars ps = some p ∧ parseCoinChars fs = some f ∧
        p.amount ≠ 0 ∧ f.amount ≠ 0 ∧ r = ⟨p, f⟩ := by
    unfold ParseFeeRatio at h
    split at h
    · rename_i ps fs hsp2
      split at h
      · rename_i p f hp hf
        split at h
        · exact absurd h (by simp)
        · rename_i hz
          push_neg at hz
          exact ⟨ps, fs, p, f, hsp2, hp, hf, hz.1, hz.2, (Option.some.inj h).symm⟩
      · exact absurd h (by simp)
    · exact absurd h (by simp)
  obtain ⟨hsd, hnps, hnfs⟩ := splitOnColon_pair hsp
  obtain ⟨hpd, hph, hpm⟩ := parseCoinChars_sound hp
  obtain ⟨hfd, hfh, hfm⟩ := parseCoinChars_sound hf
  have hpnc : ':' ∉ coinChars p := by
    intro habs
    rw [coinChars, List.mem_append] at habs
    rcases habs with habs | habs
    · exact natChars_no_colon _ habs
    · exact hnps (hpm _ habs)
  have hfnc : ':' ∉ coinChars f := by
    intro habs
    rw [coinChars, List.mem_append] at habs
    rcases habs with habs | habs
    · exact natChars_no_colon _ habs
    · exact hnfs (hfm _ habs)
  constructor
  · have hdata : (feeRatioString ⟨p, f⟩).data = coinChars p ++ ':' :: coinChars f := rfl
    rw [ParseFeeRatio_of_split (hdata ▸ splitOnColon_join hpnc hfnc)]
    rw [parseCoinChars_coinChars (Nat.pos_of_ne_zero hpz) hpd hph,
      parseCoinChars_coinChars (Nat.pos_of_ne_zero hfz) hfd hfh]
    show (if p.amount = 0 ∨ f.amount = 0 then none else some (⟨p, f⟩ : FeeRatio)) =
      some (⟨p, f⟩ : FeeRatio)
    rw [if_neg (by push_neg; exact ⟨hpz, hfz⟩)]
  · exact ⟨ps, fs, hsd, hp, hf, Nat.pos_of_ne_zero hpz, Nat.pos_of_ne_zero hfz⟩

/-- Witness for C7: `"100stake:3musd"` parses, and re-parsing its
formatting yields the same ratio. -/
theorem ParseFeeRatio_roundTrip_witness :
    ParseFeeRatio "100stake:3musd" = some ⟨⟨"stake", 100⟩, ⟨"musd", 3⟩⟩ ∧
    ParseFeeRatio (feeRatioString ⟨⟨"stake", 100⟩, ⟨"musd", 3⟩⟩) =
      some ⟨⟨"stake", 100⟩, ⟨"musd", 3⟩⟩ :=
  have h : ParseFeeRatio "100stake:3musd" = some ⟨⟨"stake", 100⟩, ⟨"musd", 3⟩⟩ := by decide
  ⟨h, (ParseFeeRatio_roundTrip "100stake:3musd" ⟨⟨"stake", 100⟩, ⟨"musd", 3⟩⟩ h).1⟩

/-! ## Markets, orders and the settlement engine (spec §3, §4.2, §4.4) -/

/-- The error kinds of spec §7. -/
inductive ExchangeError
  | invalidFeeRatio | duplicateFeeRatio | unauthorized | unknownOrder
  | wrongOrderType | marketMismatch | assetsMismatch | partialFillNotAllowed
  | insufficientCommitment | commitmentSettlementUnbalanced | duplicatePayment
  | missingRequiredAttribute
deriving DecidableEq, Repr

/-- A market permission (`exchange.Permission`). -/
inductive Permission
  | settle | cancel | withdraw | update | permissions | attributes
deriving DecidableEq, Repr

/-- An exchange access grant (`exchange.AccessGrant`). -/
structure ExchangeAccessGrant where
  address : String
  permissions : List Permission
deriving DecidableEq, Repr

/-- A market, reduced to the fields the settlement engine reads. -/
structure Market where
  marketId : Nat
  feeSellerSettlementFlat : List Coin
  feeSellerSettlementRatios : List FeeRatio
  feeBuyerSettlementFlat : List Coin
  feeBuyerSettlementRatios : List FeeRatio
  allowUserSettlement : Bool
  accessGrants : List ExchangeAccessGrant
deriving DecidableEq, Repr

/-- Modelled from the spec: an address holds a permission when the
market's access grants contain a grant for it listing that permission (an
address with no grant has no permissions). -/
def hasPermission (m : Market) (addr : String) (p : Permission) : Bool :=
  m.accessGrants.any fun g => g.address == addr && g.permissions.contains p

/-- Add an access grant giving `addr` the `settle` permission. -/
def grantSettle (m : Market) (addr : String) : Market :=
  { m with accessGrants := ⟨addr, [Permission.settle]⟩ :: m.accessGrants }

/-- An ask order (`exchange.AskOrder`). -/
structure AskOrder where
  marketId : Nat
  seller : String
  assets : Coin
  price : Coin
  sellerSettlementFlatFee : Option Coin
  allowPartial : Bool
deriving DecidableEq, Repr

/-- A bid order (`exchange.BidOrder`). -/
structure BidOrder where
  marketId : Nat
  buyer : String
  assets : Coin
  price : Coin
  buyerSettlementFees : List Coin
  allowPartial : Bool
deriving DecidableEq, Repr

/-- An order: the tagged ask/bid union keyed by its order id in the
store. -/
inductive Order
  | ask (a : AskOrder)
  | bid (b : BidOrder)
deriving DecidableEq, Repr

/-- The order-book store: order id to order. -/
structure OrderBook where
  orders : List (Nat × Order)
deriving DecidableEq, Repr

def getOrder (book : OrderBook) (id : Nat) : Option Order :=
  (book.orders.find? fun e => e.1 == id).map Prod.snd

def removeOrders (book : OrderBook) (ids : List Nat) : OrderBook :=
  ⟨book.orders.filter fun e => !ids.contains e.1⟩

/-- An instruction issued to the external ledger collaborator (spec §6). -/
inductive LedgerInstr
  | transfer (src dst : String) (coins : List Coin)
  | hold (account : String) (coins : List Coin)
  | release (account : String) (coins : List Coin)
deriving DecidableEq, Repr

/-- Decimal digit characters of `n`, with explicit fuel so the kernel can
evaluate it. -/
def natCharsFuel : Nat → Nat → List Char
  | 0, _ => []
  | fuel + 1, n => if n = 0 then [] else natCharsFuel fuel (n / 10) ++ [digitChar (n % 10)]

/-- A readable decimal string for `n`. -/
def natStr (n : Nat) : String :=
  if n = 0 then "0" else ⟨natCharsFuel (n + 1) n⟩

/-- The custody address of a market's account. -/
def marketAddress (marketId : Nat) : String := "market-" ++ natStr marketId

/-- The fee-collection destination. -/
def feeCollector : String := "fee-collector"

/-- Total amount of a denom across a coin list. -/
def coinAmountOf (l : List Coin) (denom : String) : Nat :=
  ((l.filter fun c => c.denom == denom).map Coin.amount).sum

/-- Per-denom truncated subtraction of coins, dropping zero entries. -/
def coinsSub (a b : List Coin) : List Coin :=
  (a.map fun c => Coin.mk c.denom (c.amount - coinAmountOf b c.denom)).filter
    fun c => c.amount ≠ 0

/-- Resolve ask-order ids against the book (spec §4.4 step 2). -/
def resolveAsks (book : OrderBook) : List Nat → Except ExchangeError (List AskOrder)
  | [] => .ok []
  | id :: rest =>
    match getOrder book id with
    | none => .error .unknownOrder
    | some (.bid _) => .error .wrongOrderType
    | some (.ask a) =>
      match resolveAsks book rest with
      | .error e => .error e
      | .ok tl => .ok (a :: tl)

/-- Resolve bid-order ids against the book (spec §4.4 step 2). -/
def resolveBids (book : OrderBook) : List Nat → Except ExchangeError (List BidOrder)
  | [] => .ok []
  | id :: rest =>
    match getOrder book id with
    | none => .error .unknownOrder
    | some (.ask _) => .error .wrongOrderType
    | some (.bid b) =>
      match resolveBids book rest with
      | .error e => .error e
      | .ok tl => .ok (b :: tl)

/-- Modelled from the spec: the seller settlement fee of a filled ask —
its flat fee plus the seller ratio fees on its price (spec §4.4 step 5,
§4.1). -/
def sellerFee (m : Market) (a : AskOrder) : List Coin :=
  sumCoins (a.sellerSettlementFlatFee.toList ++
    settlementRatioFees m.feeSellerSettlementRatios [a.price])

/-- Modelled from the spec: the buyer settlement fee of a filled bid —
the market's flat buyer fee plus the buyer ratio fees on its price (spec
§4.4 step 5, §4.1). -/
def buyerFee (m : Market) (b : BidOrder) : List Coin :=
  sumCoins (m.feeBuyerSettlementFlat ++
    settlementRatioFees m.feeBuyerSettlementRatios [b.price])

/-- Modelled from the spec: the ledger instructions of a fully-filled
settlement (spec §4.4 step 6) — assets move from each seller to the
buyers via the market account, price funds net of seller fees flow to
sellers, buyers pay price plus buyer fees, and collected fees go to the
fee-collection destination. -/
def settleInstructions (m : Market) (asks : List AskOrder) (bids : List BidOrder) :
    List LedgerInstr :=
  let acct := marketAddress m.marketId
  (asks.map fun a => LedgerInstr.transfer a.seller acct [a.assets]) ++
  (bids.map fun b => LedgerInstr.transfer acct b.buyer [b.assets]) ++
  (bids.map fun b => LedgerInstr.transfer b.buyer acct (sumCoins ([b.price] ++ buyerFee m b))) ++
  (asks.map fun a => LedgerInstr.transfer acct a.seller (coinsSub [a.price] (sellerFee m a))) ++
  [LedgerInstr.transfer acct feeCollector
    (sumCoins ((asks.map (sellerFee m)).foldr (· ++ ·) [] ++
      (bids.map (buyerFee m)).foldr (· ++ ·) []))]

/-- Modelled from the spec: settlement steps 2–8 of §4.4 after the
authorization check, restricted to fully-filled batches — resolve the
referenced orders (`UnknownOrder`), require a single market
(`MarketMismatch`), require total ask assets exactly equal to total bid
assets with no engine-side rounding (`AssetsMismatch`), then remove the
filled orders and issue the ledger instructions. -/
def settleAfterAuth (book : OrderBook) (m : Market) (askIds bidIds : List Nat) :
    Except ExchangeError (OrderBook × List LedgerInstr) :=
  match resolveAsks book askIds with
  | .error e => .error e
  | .ok asks =>
    match resolveBids book bidIds with
    | .error e => .error e
    | .ok bids =>
      if !(asks.map AskOrder.marketId ++ bids.map BidOrder.marketId).all
          (fun i => i == m.marketId) then
        .error .marketMismatch
      else if sumCoins (asks.map AskOrder.assets) ≠ sumCoins (bids.map BidOrder.assets) then
        .error .assetsMismatch
      else
        .ok (removeOrders book (askIds ++ bidIds), settleInstructions m asks bids)

/-- Modelled from the spec: the settlement operation of §4.4 — fail
unless the caller may settle (step 1; `Unauthorized` per §8's testable
property, the case §4.4 step 1 labels `MarketSettlementDisabled`), then
run the validated settlement. -/
def settle (book : OrderBook) (m : Market) (caller : String)
    (askIds bidIds : List Nat) : Except ExchangeError (OrderBook × List LedgerInstr) :=
  if !m.allowUserSettlement && !hasPermission m caller Permission.settle then
    .error .unauthorized
  else settleAfterAuth book m askIds bidIds

/-- The all-or-nothing write set of a settlement (spec §5): the store and
issued instructions on success, and the untouched store with no
instructions on failure. -/
def settleExec (book : OrderBook) (m : Market) (caller : String)
    (askIds bidIds : List Nat) : OrderBook × List LedgerInstr :=
  match settle book m caller askIds bidIds with
  | .error _ => (book, [])
  | .ok r => r

/-- C1: a settlement batch that passes authorization and order resolution
but whose total ask assets differ from its total bid assets fails with
`AssetsMismatch`, and its write set is the untouched store with no ledger
instruction. -/
theorem settle_assetsMismatch (book : OrderBook) (m : Market) (caller : String)
    (askIds bidIds : List Nat) (asks : List AskOrder) (bids : List BidOrder)
    (hauth : (!m.allowUserSettlement && !hasPermission m caller Permission.settle) = false)
    (hasks : resolveAsks book askIds = .ok asks)
    (hbids : resolveBids book bidIds = .ok bids)
    (hmkt : (asks.map AskOrder.marketId ++ bids.map BidOrder.marketId).all
      (fun i => i == m.marketId) = true)
    (hmis : sumCoins (asks.map AskOrder.assets) ≠ sumCoins (bids.map BidOrder.assets)) :
    settle book m caller askIds bidIds = .error .assetsMismatch ∧
    settleExec book m caller askIds bidIds = (book, []) := by
  have hstep : settle book m caller askIds bidIds = .error .assetsMismatch := by
    unfold settle settleAfterAuth
    rw [hauth]
    simp only [Bool.false_eq_true, if_false, hasks, hbids, hmkt]
    simp [hmis]
  refine ⟨hstep, ?_⟩
  unfold settleExec
  rw [hstep]

/-- Witness for C1: a batch of one ask for `10acorn` and one bid for
`11acorn` fails with `AssetsMismatch` and leaves the store untouched. -/
theorem settle_assetsMismatch_witness :
    settle (OrderBook.mk
        [(1, Order.ask ⟨1, "seller", ⟨"acorn", 10⟩, ⟨"stake", 100⟩, none, false⟩),
         (2, Order.bid ⟨1, "buyer", ⟨"acorn", 11⟩, ⟨"stake", 100⟩, [], false⟩)])
      ⟨1, [], [], [], [], true, []⟩ "anyone" [1] [2] =
      .error .assetsMismatch ∧
    settleExec (OrderBook.mk
        [(1, Order.ask ⟨1, "seller", ⟨"acorn", 10⟩, ⟨"stake", 100⟩, none, false⟩),
         (2, Order.bid ⟨1, "buyer", ⟨"acorn", 11⟩, ⟨"stake", 100⟩, [], false⟩)])
      ⟨1, [], [], [], [], true, []⟩ "anyone" [1] [2] =
      (OrderBook.mk
        [(1, Order.ask ⟨1, "seller", ⟨"acorn", 10⟩, ⟨"stake", 100⟩, none, false⟩),
         (2, Order.bid ⟨1, "buyer", ⟨"acorn", 11⟩, ⟨"stake", 100⟩, [], false⟩)], []) :=
  settle_assetsMismatch
    (OrderBook.mk
      [(1, Order.ask ⟨1, "seller", ⟨"acorn", 10⟩, ⟨"stake", 100⟩, none, false⟩),
       (2, Order.bid ⟨1, "buyer", ⟨"acorn", 11⟩, ⟨"stake", 100⟩, [], false⟩)])
    ⟨1, [], [], [], [], true, []⟩ "anyone" [1] [2]
    [⟨1, "seller", ⟨"acorn", 10⟩, ⟨"stake", 100⟩, none, false⟩]
    [⟨1, "buyer", ⟨"acorn", 11⟩, ⟨"stake", 100⟩, [], false⟩]
    (by decide) rfl rfl (by decide) (by decide)

/-- C4: on a market with `allowUserSettlement = false`, a settlement
attempt by a caller without the `settle` permission fails with
`Unauthorized`, and the same request succeeds (with all other state
equal) once that caller is granted the `settle` permission, provided the
request is otherwise valid. -/
theorem settle_permission (book : OrderBook) (m : Market) (caller : String)
    (askIds bidIds : List Nat)
    (hm : m.allowUserSettlement = false)
    (hp : hasPermission m caller Permission.settle = false)
    (hok : (settleAfterAuth book (grantSettle m caller) askIds bidIds).isOk = true) :
    settle book m caller askIds bidIds = .error .unauthorized ∧
    (settle book (grantSettle m caller) caller askIds bidIds).isOk = true := by
  constructor
  · unfold settle
    rw [hm, hp]
    simp
  · have hper : hasPermission (grantSettle m caller) caller Permission.settle = true := by
      simp [hasPermission, grantSettle]
    unfold settle
    rw [hper]
    simpa using hok

/-- Witness for C4: a fully matching ask/bid batch on a market that
disallows user settlement is settled successfully by a caller holding a
fresh `settle` grant. -/
theorem settle_permission_witness :
    (settle (OrderBook.mk
        [(1, Order.ask ⟨1, "seller", ⟨"acorn", 10⟩, ⟨"stake", 100⟩, none, false⟩),
         (2, Order.bid ⟨1, "buyer", ⟨"acorn", 10⟩, ⟨"stake", 100⟩, [], false⟩)])
      ⟨1, [], [], [], [], false, []⟩ "admin" [1] [2] =
      .error .unauthorized) ∧
    (settle (OrderBook.mk
        [(1, Order.ask ⟨1, "seller", ⟨"acorn", 10⟩, ⟨"stake", 100⟩, none, false⟩),
         (2, Order.bid ⟨1, "buyer", ⟨"acorn", 10⟩, ⟨"stake", 100⟩, [], false⟩)])
      (grantSettle ⟨1, [], [], [], [], false, []⟩ "admin") "admin" [1] [2]).isOk = true :=
  settle_permission
    (OrderBook.mk
      [(1, Order.ask ⟨1, "seller", ⟨"acorn", 10⟩, ⟨"stake", 100⟩, none, false⟩),
       (2, Order.bid ⟨1, "buyer", ⟨"acorn", 10⟩, ⟨"stake", 100⟩, [], false⟩)])
    ⟨1, [], [], [], [], false, []⟩ "admin" [1] [2]
    rfl (by decide) (by decide)

/-! ## Commitment ledger (spec §4.5) -/

/-- A commitment record (`exchange.Commitment`): funds an account has
committed to a market. -/
structure Commitment where
  account : String
  marketId : Nat
  amount : List Coin
deriving DecidableEq, Repr

/-- The commitment store, keyed by (marketId, account). -/
abbrev CommitmentStore := List Commitment

def getCommitment (st : CommitmentStore) (marketId : Nat) (account : String) :
    Option (List Coin) :=
  (st.find? fun c => c.marketId == marketId && c.account == account).map Commitment.amount

def deleteCommitment (st : CommitmentStore) (marketId : Nat) (account : String) :
    CommitmentStore :=
  st.filter fun c => !(c.marketId == marketId && c.account == account)

/-- Modelled from the spec: store a commitment amount — a zero amount
deletes the record entirely, it is never stored as an explicit empty
record. -/
def setCommitment (st : CommitmentStore) (marketId : Nat) (account : String)
    (amount : List Coin) : CommitmentStore :=
  if sumCoins amount = [] then deleteCommitment st marketId account
  else ⟨account, marketId, sumCoins amount⟩ :: deleteCommitment st marketId account

/-- `amount ≤ held` per denom, on normalized coins. -/
def coinsLE (amount held : List Coin) : Bool :=
  (sumCoins amount).all fun c => c.amount ≤ coinAmountOf (sumCoins held) c.denom

/-- Modelled from the spec: `AddCommitment` — increase the (market,
account) amount and instruct the ledger to move the funds into market
custody (attribute and fee checks abstracted away). -/
def addCommitment (st : CommitmentStore) (marketId : Nat) (account : String)
    (amount : List Coin) : Except ExchangeError (CommitmentStore × List LedgerInstr) :=
  let cur := (getCommitment st marketId account).getD []
  .ok (setCommitment st marketId account (cur ++ amount),
    [LedgerInstr.transfer account (marketAddress marketId) (sumCoins amount)])

/-- Modelled from the spec: `ReleaseCommitment` — decrease the amount and
instruct release back to the account; fails with `InsufficientCommitment`
if the requested release exceeds the held amount; a record reduced to
zero is removed. -/
def releaseCommitment (st : CommitmentStore) (marketId : Nat) (account : String)
    (amount : List Coin) : Except ExchangeError (CommitmentStore × List LedgerInstr) :=
  match getCommitment st marketId account with
  | none => .error .insufficientCommitment
  | some held =>
    if !coinsLE amount held then .error .insufficientCommitment
    else .ok (setCommitment st marketId account (coinsSub (sumCoins held) (sumCoins amount)),
      [LedgerInstr.release account (sumCoins amount)])

/-- A signed per-denom delta of one account in a commitment settlement. -/
abbrev CoinDelta := String × Int

/-- Insert a delta into a denom-sorted signed assoc list, merging equal
denoms. -/
def insertDelta (d : CoinDelta) : List CoinDelta → List CoinDelta
  | [] => [d]
  | e :: rest =>
    if strLt d.1 e.1 then d :: e :: rest
    else if d.1 = e.1 then (e.1, d.2 + e.2) :: rest
    else e :: insertDelta d rest

/-- The normalized per-denom sum of all deltas across all accounts of a
commitment settlement (zero entries dropped). -/
def sumDeltas (deltas : List (String × List CoinDelta)) : List CoinDelta :=
  ((deltas.map Prod.snd).foldr (· ++ ·) []).foldl (fun acc d => insertDelta d acc) []
    |>.filter fun d => d.2 ≠ 0

/-- Apply one account's signed delta to held coins; `none` when a denom
would go negative. -/
def coinsAddDelta : List Coin → List CoinDelta → Option (List Coin)
  | cs, [] => some cs
  | cs, (denom, v) :: rest =>
    let cur : Int := (coinAmountOf cs denom : Int)
    if cur + v < 0 then none
    else coinsAddDelta
      ((cs.filter fun c => c.denom ≠ denom) ++
        if cur + v = 0 then [] else [⟨denom, (cur + v).toNat⟩]) rest

/-- Modelled from the spec: apply one account's delta of a commitment
settlement to the store, failing with `InsufficientCommitment` when a
balance would go negative. -/
def applyDelta (st : CommitmentStore) (marketId : Nat) (account : String)
    (delta : List CoinDelta) : Except ExchangeError CommitmentStore :=
  match coinsAddDelta (sumCoins ((getCommitment st marketId account).getD [])) delta with
  | none => .error .insufficientCommitment
  | some newAmt => .ok (setCommitment st marketId account newAmt)

/-- Apply every account's delta in order. -/
def applyDeltasAll : CommitmentStore → Nat → List (String × List CoinDelta) →
    Except ExchangeError CommitmentStore
  | st, _, [] => .ok st
  | st, marketId, (account, delta) :: rest =>
    match applyDelta st marketId account delta with
    | .error e => .error e
    | .ok st' => applyDeltasAll st' marketId rest

/-- Modelled from the spec: `SettleCommitments` — a net transfer across
committed balances whose deltas must sum to zero per denom; fails with
`CommitmentSettlementUnbalanced` otherwise. -/
def settleCommitments (st : CommitmentStore) (marketId : Nat)
    (deltas : List (String × List CoinDelta)) : Except ExchangeError CommitmentStore :=
  if sumDeltas deltas ≠ [] then .error .commitmentSettlementUnbalanced
  else applyDeltasAll st marketId deltas

/-- The all-or-nothing write set of a commitment settlement: the store is
untouched on failure. -/
def settleCommitmentsExec (st : CommitmentStore) (marketId : Nat)
    (deltas : List (String × List CoinDelta)) : CommitmentStore :=
  match settleCommitments st marketId deltas with
  | .error _ => st
  | .ok st' => st'

/-- C3: a commitment settlement whose deltas do not sum to zero fails
with `CommitmentSettlementUnbalanced` and leaves every commitment balance
exactly as it was; a balanced batch proceeds to apply the net transfer. -/
theorem settleCommitments_balance_check (st : CommitmentStore) (marketId : Nat)
    (deltas : List (String × List CoinDelta)) :
    (sumDeltas deltas ≠ [] →
      settleCommitments st marketId deltas = .error .commitmentSettlementUnbalanced ∧
      settleCommitmentsExec st marketId deltas = st) ∧
    (sumDeltas deltas = [] →
      settleCommitments st marketId deltas = applyDeltasAll st marketId deltas) := by
  constructor
  · intro h
    have hs : settleCommitments st marketId deltas = .error .commitmentSettlementUnbalanced := by
      unfold settleCommitments
      rw [if_pos h]
    refine ⟨hs, ?_⟩
    unfold settleCommitmentsExec
    rw [hs]
  · intro h
    unfold settleCommitments
    rw [if_neg (by simp [h])]

/-- Witness for C3: a one-sided delta batch is rejected and leaves a
concrete store unchanged, while a balanced transfer is applied. -/
theorem settleCommitments_balance_check_witness :
    (settleCommitments [⟨"alice", 1, [⟨"acorn", 5⟩]⟩] 1 [("alice", [("acorn", 1)])] =
      .error .commitmentSettlementUnbalanced ∧
     settleCommitmentsExec [⟨"alice", 1, [⟨"acorn", 5⟩]⟩] 1 [("alice", [("acorn", 1)])] =
      [⟨"alice", 1, [⟨"acorn", 5⟩]⟩]) ∧
    settleCommitments [⟨"alice", 1, [⟨"acorn", 5⟩]⟩] 1
        [("alice", [("acorn", -2)]), ("bob", [("acorn", 2)])] =
      applyDeltasAll [⟨"alice", 1, [⟨"acorn", 5⟩]⟩] 1
        [("alice", [("acorn", -2)]), ("bob", [("acorn", 2)])] :=
  ⟨(settleCommitments_balance_check [⟨"alice", 1, [⟨"acorn", 5⟩]⟩] 1
      [("alice", [("acorn", 1)])]).1 (by decide),
   (settleCommitments_balance_check [⟨"alice", 1, [⟨"acorn", 5⟩]⟩] 1
      [("alice", [("acorn", -2)]), ("bob", [("acorn", 2)])]).2 (by decide)⟩

theorem mem_sumCoins_ne_zero {l : List Coin} {c : Coin} (h : c ∈ sumCoins l) :
    c.amount ≠ 0 := by
  unfold sumCoins at h
  have := (List.mem_filter.mp h).2
  simpa using this

theorem coinAmountOf_ge_of_mem {l : List Coin} {c : Coin} (h : c ∈ l) :
    c.amount ≤ coinAmountOf l c.denom := by
  unfold coinAmountOf
  apply List.single_le_sum (fun x _ => Nat.zero_le x)
  rw [List.mem_map]
  exact ⟨c, List.mem_filter.mpr ⟨h, by simp⟩, rfl⟩

theorem coinsSub_self (l : List Coin) : coinsSub l l = [] := by
  unfold coinsSub
  rw [List.filter_eq_nil_iff]
  intro x hx
  rw [List.mem_map] at hx
  obtain ⟨c, hc, rfl⟩ := hx
  have := coinAmountOf_ge_of_mem hc
  simp only [ne_eq, decide_not, Bool.not_eq_true', decide_eq_false_iff_not, not_not]
  omega

theorem getCommitment_delete (st : CommitmentStore) (marketId : Nat) (account : String) :
    getCommitment (deleteCommitment st marketId account) marketId account = none := by
  unfold getCommitment deleteCommitment
  induction st with
  | nil => rfl
  | cons c rest ih =>
    rw [List.filter_cons]
    by_cases hmatch : (c.marketId == marketId && c.account == account) = true
    · rw [hmatch]
      simpa using ih
    · have hb : (!(c.marketId == marketId && c.account == account)) = true := by
        simp [hmatch]
      rw [hb]
      simp only [if_true, List.find?_cons, hmatch]
      simpa using ih

theorem coinsLE_refl (held : List Coin) : coinsLE held held = true := by
  unfold coinsLE
  rw [List.all_eq_true]
  intro c hc
  simpa using coinAmountOf_ge_of_mem hc

theorem releaseCommitment_full (st : CommitmentStore) (marketId : Nat) (account : String)
    (held : List Coin) (hheld : getCommitment st marketId account = some held) :
    releaseCommitment st marketId account held =
      .ok (deleteCommitment st marketId account,
        [LedgerInstr.release account (sumCoins held)]) := by
  unfold releaseCommitment
  rw [hheld]
  simp only [coinsLE_refl, Bool.not_true, Bool.false_eq_true, if_false]
  rw [coinsSub_self]
  unfold setCommitment
  rw [if_pos (show sumCoins ([] : List Coin) = [] from rfl)]

/-- No stored commitment record is empty or has a zero coin amount. -/
def noZeroCommitments (st : CommitmentStore) : Prop :=
  ∀ c ∈ st, c.amount ≠ [] ∧ ∀ coin ∈ c.amount, coin.amount ≠ 0

theorem deleteCommitment_noZero {st : CommitmentStore} (marketId : Nat) (account : String)
    (h : noZeroCommitments st) :
    noZeroCommitments (deleteCommitment st marketId account) := by
  intro c hc
  exact h c (List.mem_filter.mp hc).1

theorem setCommitment_noZero {st : CommitmentStore} (marketId : Nat) (account : String)
    (amount : List Coin) (h : noZeroCommitments st) :
    noZeroCommitments (setCommitment st marketId account amount) := by
  unfold setCommitment
  by_cases hz : sumCoins amount = []
  · rw [if_pos hz]
    exact deleteCommitment_noZero marketId account h
  · rw [if_neg hz]
    intro c hc
    rcases List.mem_cons.mp hc with rfl | hmem
    · exact ⟨hz, fun coin hcoin => mem_sumCoins_ne_zero hcoin⟩
    · exact deleteCommitment_noZero marketId account h c hmem

theorem applyDeltasAll_noZero (marketId : Nat) :
    ∀ (deltas : List (String × List CoinDelta)) (st st' : CommitmentStore),
      noZeroCommitments st → applyDeltasAll st marketId deltas = .ok st' →
      noZeroCommitments st' := by
  intro deltas
  induction deltas with
  | nil =>
    intro st st' h heq
    obtain rfl : st = st' := Except.ok.inj heq
    exact h
  | cons d rest ih =>
    intro st st' h heq
    rw [applyDeltasAll] at heq
    cases hap : applyDelta st marketId d.1 d.2 with
    | error e => rw [hap] at heq; exact absurd heq (by simp)
    | ok st1 =>
      rw [hap] at heq
      have hst1 : noZeroCommitments st1 := by
        unfold applyDelta at hap
        cases hcd : coinsAddDelta (sumCoins ((getCommitment st marketId d.1).getD [])) d.2 with
        | none => rw [hcd] at hap; exact absurd hap (by simp)
        | some newAmt =>
          rw [hcd] at hap
          obtain rfl : setCommitment st marketId d.1 newAmt = st1 := Except.ok.inj hap
          exact setCommitment_noZero marketId d.1 newAmt h
      exact ih st1 st' hst1 heq

/-- C5: releasing a commitment down to zero removes the (market, account)
record entirely — a subsequent read reports not-found — and no commitment
operation (add, release, or commitment settlement) ever stores a
zero-amount commitment record. -/
theorem commitment_zero_cleanup :
    (∀ (st : CommitmentStore) (marketId : Nat) (account : String) (held : List Coin)
        (r : CommitmentStore × List LedgerInstr),
      getCommitment st marketId account = some held →
      releaseCommitment st marketId account held = .ok r →
      getCommitment r.1 marketId account = none) ∧
    (∀ (st : CommitmentStore) (marketId : Nat) (account : String) (amount : List Coin)
        (r : CommitmentStore × List LedgerInstr),
      noZeroCommitments st → addCommitment st marketId account amount = .ok r →
      noZeroCommitments r.1) ∧
    (∀ (st : CommitmentStore) (marketId : Nat) (account : String) (amount : List Coin)
        (r : CommitmentStore × List LedgerInstr),
      noZeroCommitments st → releaseCommitment st marketId account amount = .ok r →
      noZeroCommitments r.1) ∧
    (∀ (st : CommitmentStore) (marketId : Nat) (deltas : List (String × List CoinDelta))
        (st' : CommitmentStore),
      noZeroCommitments st → settleCommitments st marketId deltas = .ok st' →
      noZeroCommitments st') := by
  refine ⟨?_, ?_, ?_, ?_⟩
  · intro st marketId account held r hheld hrel
    rw [releaseCommitment_full st marketId account held hheld] at hrel
    obtain rfl := (Except.ok.inj hrel).symm
    exact getCommitment_delete st marketId account
  · intro st marketId account amount r h hadd
    unfold addCommitment at hadd
    obtain rfl := (Except.ok.inj hadd).symm
    exact setCommitment_noZero marketId account _ h
  · intro st marketId account amount r h hrel
    unfold releaseCommitment at hrel
    cases hheld : getCommitment st marketId account with
    | none => rw [hheld] at hrel; exact absurd hrel (by simp)
    | some held =>
      simp only [hheld] at hrel
      by_cases hle : (!coinsLE amount held) = true
      · rw [if_pos hle] at hrel
        exact absurd hrel (by simp)
      · rw [if_neg hle] at hrel
        obtain rfl := (Except.ok.inj hrel).symm
        exact setCommitment_noZero marketId account _ h
  · intro st marketId deltas st' h hsettle
    unfold settleCommitments at hsettle
    by_cases hbal : sumDeltas deltas ≠ []
    · rw [if_pos hbal] at hsettle
      exact absurd hsettle (by simp)
    · rw [if_neg hbal] at hsettle
      exact applyDeltasAll_noZero marketId deltas st st' h hsettle

/-- Witness for C5: releasing the full `5acorn` commitment deletes the
record, so the subsequent read is not-found. -/
theorem commitment_zero_cleanup_witness :
    getCommitment
      (([] : CommitmentStore), [LedgerInstr.release "alice" [⟨"acorn", 5⟩]]).1 1 "alice" =
      none :=
  commitment_zero_cleanup.1 [⟨"alice", 1, [⟨"acorn", 5⟩]⟩] 1 "alice" [⟨"acorn", 5⟩]
    (([] : CommitmentStore), [LedgerInstr.release "alice" [⟨"acorn", 5⟩]])
    rfl rfl

/-! ## Payment ledger (spec §4.6) -/

/-- A payment record (`exchange.Payment`), keyed by (source,
externalId). -/
structure Payment where
  source : String
  sourceAmount : List Coin
  target : String
  targetAmount : List Coin
  externalId : String
deriving DecidableEq, Repr

/-- The payment store. -/
abbrev PaymentStore := List Payment

def getPayment (st : PaymentStore) (source externalId : String) : Option Payment :=
  st.find? fun p => p.source == source && p.externalId == externalId

/-- Modelled from the spec: `CreatePayment` — fails with
`DuplicatePayment` if a payment with the same (source, externalId) already
exists, otherwise stores the payment and instructs the ledger to hold the
source amount. -/
def createPayment (st : PaymentStore) (p : Payment) :
    Except ExchangeError (PaymentStore × List LedgerInstr) :=
  match getPayment st p.source p.externalId with
  | some _ => .error .duplicatePayment
  | none => .ok (p :: st, [LedgerInstr.hold p.source (sumCoins p.sourceAmount)])

/-- The all-or-nothing write set of `CreatePayment`: the store is
untouched on failure. -/
def createPaymentExec (st : PaymentStore) (p : Payment) : PaymentStore :=
  match createPayment st p with
  | .error _ => st
  | .ok r => r.1

/-- Every stored (source, externalId) pair is unique. -/
def paymentKeysUnique (st : PaymentStore) : Prop :=
  (st.map fun p => (p.source, p.externalId)).Nodup

theorem getPayment_none_not_mem {st : PaymentStore} {source externalId : String}
    (h : getPayment st source externalId = none) :
    (source, externalId) ∉ st.map fun p => (p.source, p.externalId) := by
  intro habs
  rw [List.mem_map] at habs
  obtain ⟨q, hq, hkey⟩ := habs
  obtain ⟨hqs, hqe⟩ := Prod.mk.inj hkey
  unfold getPayment at h
  rw [List.find?_eq_none] at h
  have := h q hq
  simp [hqs, hqe] at this

/-- C6: at most one live payment exists per (source, externalId) pair —
creating a payment whose key already identifies a stored payment fails
with `DuplicatePayment` and leaves the existing payment (and the whole
store) unchanged, and a successful creation preserves key uniqueness. -/
theorem createPayment_duplicate :
    (∀ (st : PaymentStore) (p q : Payment),
      getPayment st p.source p.externalId = some q →
      createPayment st p = .error .duplicatePayment ∧
      createPaymentExec st p = st ∧
      getPayment (createPaymentExec st p) p.source p.externalId = some q) ∧
    (∀ (st : PaymentStore) (p : Payment) (r : PaymentStore × List LedgerInstr),
      paymentKeysUnique st → createPayment st p = .ok r →
      paymentKeysUnique r.1) := by
  constructor
  · intro st p q h
    have hc : createPayment st p = .error .duplicatePayment := by
      unfold createPayment
      rw [h]
    have he : createPaymentExec st p = st := by
      unfold createPaymentExec
      rw [hc]
    exact ⟨hc, he, by rw [he]; exact h⟩
  · intro st p r h hc
    unfold createPayment at hc
    cases hget : getPayment st p.source p.externalId with
    | some q => rw [hget] at hc; exact absurd hc (by simp)
    | none =>
      rw [hget] at hc
      obtain rfl := (Except.ok.inj hc).symm
      unfold paymentKeysUnique
      rw [List.map_cons, List.nodup_cons]
      exact ⟨getPayment_none_not_mem hget, h⟩

/-- Witness for C6: a second payment keyed (S, "order-42") is rejected
and the stored payment survives unchanged. -/
theorem createPayment_duplicate_witness :
    createPayment [⟨"S", [⟨"hash", 5⟩], "T", [⟨"stake", 3⟩], "order-42"⟩]
        ⟨"S", [⟨"hash", 7⟩], "U", [⟨"stake", 9⟩], "order-42"⟩ =
      .error .duplicatePayment ∧
    createPaymentExec [⟨"S", [⟨"hash", 5⟩], "T", [⟨"stake", 3⟩], "order-42"⟩]
        ⟨"S", [⟨"hash", 7⟩], "U", [⟨"stake", 9⟩], "order-42"⟩ =
      [⟨"S", [⟨"hash", 5⟩], "T", [⟨"stake", 3⟩], "order-42"⟩] ∧
    getPayment (createPaymentExec [⟨"S", [⟨"hash", 5⟩], "T", [⟨"stake", 3⟩], "order-42"⟩]
        ⟨"S", [⟨"hash", 7⟩], "U", [⟨"stake", 9⟩], "order-42"⟩) "S" "order-42" =
      some ⟨"S", [⟨"hash", 5⟩], "T", [⟨"stake", 3⟩], "order-42"⟩ :=
  createPayment_duplicate.1 [⟨"S", [⟨"hash", 5⟩], "T", [⟨"stake", 3⟩], "order-42"⟩]
    ⟨"S", [⟨"hash", 7⟩], "U", [⟨"stake", 9⟩], "order-42"⟩
    ⟨"S", [⟨"hash", 5⟩], "T", [⟨"stake", 3⟩], "order-42"⟩ rfl

end Provenance
